import Mathlib

/-!
# Verification of `cpptest.cpp` (RcppArmadillo snippets)

Shallow embedding of three exported functions of `src/RcppArmadillo/codes/cpptest.cpp`:

* `VARSim_Rcpp` (lines 155-162): first-order vector autoregression simulator;
* `fastLm` (lines 145-152): least-squares fit through `arma::solve`;
* `nth_partial_sort` (lines 64-70): `std::nth_element` followed by `std::sort` of the prefix,
  on a clone of the argument.

Modelling conventions.

* A `double` is an element of an exact arithmetic structure `K`: a commutative ring for the
  simulator, a linearly ordered field for the solver, a linear order for the sorting routine.
  Rounding, infinities and NaN are outside the model.
* An `arma::mat` is a record of its two dimensions and its entries; dimensions are natural
  numbers (R matrix dimensions fit in an `int`, so `int m = epsilon.n_rows` does not wrap).
* Armadillo operations check conformance of their operands and throw `std::logic_error`
  when the check fails (the library default); a thrown exception is an `Except.error`
  carrying the check that failed.
* An Rcpp `NumericVector` is a handle to an R vector object; objects live in a heap so that
  aliasing (`NumericVector B = A`) and copying (`clone`) are distinguishable.
-/

set_option linter.unusedVariables false

open Matrix

namespace ARE

/-! ## Data model -/

/-- The conformance and bounds checks of the linear-algebra library that the embedded
functions can trigger, named after the message of the exception. -/
inductive Check where
  /-- Raised by `Mat::row()`: index out of bounds. -/
  | row_index : Check
  /-- Raised by `operator*`: matrix multiplication, incompatible matrix dimensions. -/
  | mul_dims : Check
  /-- Raised by `operator+`: addition, incompatible matrix dimensions. -/
  | add_dims : Check
  /-- Raised by `operator-`: subtraction, incompatible matrix dimensions. -/
  | sub_dims : Check
  /-- Raised by assignment to a row view: copy into submatrix, incompatible dimensions. -/
  | submat_dims : Check
  /-- Raised inside `solve()`: number of rows in given matrices must be the same. -/
  | solve_rows : Check
  deriving DecidableEq

/-- Exceptions reaching the caller. Every failure of the embedded functions is a
`std::logic_error` thrown by a library check. -/
inductive Err where
  | logic_error : Check → Err
  deriving DecidableEq

/-- An `arma::mat`: `n_rows`, `n_cols` and the entries. -/
structure Mat (K : Type) where
  n_rows : ℕ
  n_cols : ℕ
  mem : Matrix (Fin n_rows) (Fin n_cols) K

/-- An `arma::colvec`: a matrix whose number of columns is fixed to one by its type. -/
structure Col (K : Type) where
  n_rows : ℕ
  mem : Fin n_rows → K

section MatOps
variable {K : Type} [CommRing K]

/-- The constructor `arma::mat(r, c, arma::fill::zeros)`. -/
def Mat.zeros (r c : ℕ) : Mat K := ⟨r, c, 0⟩

/-- The transpose `A.t()`. -/
def Mat.t (A : Mat K) : Mat K := ⟨A.n_cols, A.n_rows, A.memᵀ⟩

/-- The row view `A.row(i)`, a `1 × n_cols` matrix; bounds-checked. -/
def Mat.row (A : Mat K) (i : ℕ) : Except Err (Mat K) :=
  if h : i < A.n_rows then .ok ⟨1, A.n_cols, fun _ j => A.mem ⟨i, h⟩ j⟩
  else .error (.logic_error .row_index)

/-- The product `A * B`; requires `A.n_cols = B.n_rows`. -/
def Mat.mul (A B : Mat K) : Except Err (Mat K) :=
  if h : A.n_cols = B.n_rows then
    .ok ⟨A.n_rows, B.n_cols, fun i j => ∑ l, A.mem i l * B.mem (Fin.cast h l) j⟩
  else .error (.logic_error .mul_dims)

/-- The sum `A + B`; requires equal shapes. -/
def Mat.add (A B : Mat K) : Except Err (Mat K) :=
  if h : A.n_rows = B.n_rows ∧ A.n_cols = B.n_cols then
    .ok ⟨A.n_rows, A.n_cols, fun i j => A.mem i j + B.mem (Fin.cast h.1 i) (Fin.cast h.2 j)⟩
  else .error (.logic_error .add_dims)

/-- The assignment `A.row(i) = r`: the row view is bounds-checked, then `r` must be
`1 × A.n_cols`; all other rows are kept. -/
def Mat.set_row (A : Mat K) (i : ℕ) (r : Mat K) : Except Err (Mat K) :=
  if hi : i < A.n_rows then
    if h : r.n_rows = 1 ∧ r.n_cols = A.n_cols then
      .ok ⟨A.n_rows, A.n_cols, fun a b =>
        if a.val = i then r.mem ⟨0, by omega⟩ (Fin.cast h.2.symm b) else A.mem a b⟩
    else .error (.logic_error .submat_dims)
  else .error (.logic_error .row_index)

/-- The product `X * v` of a matrix and a column vector; requires `X.n_cols = v.n_rows`. -/
def Mat.mulVec (X : Mat K) (v : Col K) : Except Err (Col K) :=
  if h : X.n_cols = v.n_rows then
    .ok ⟨X.n_rows, X.mem *ᵥ (fun j => v.mem (Fin.cast h j))⟩
  else .error (.logic_error .mul_dims)

/-- The difference `a - b` of two column vectors; requires equal lengths. -/
def Col.sub (a b : Col K) : Except Err (Col K) :=
  if h : a.n_rows = b.n_rows then
    .ok ⟨a.n_rows, fun i => a.mem i - b.mem (Fin.cast h i)⟩
  else .error (.logic_error .sub_dims)

/-! ## `VARSim_Rcpp` -/

/-- The loop body of `VARSim_Rcpp`:
`out.row(i) = out.row(i-1) * A.t() + epsilon.row(i);`. -/
def VARSim_step (A epsilon : Mat K) (out : Mat K) (i : ℕ) : Except Err (Mat K) := do
  let prev ← out.row (i - 1)
  let prod ← prev.mul A.t
  let eps_i ← epsilon.row i
  let new_row ← prod.add eps_i
  out.set_row i new_row

/-- The function `VARSim_Rcpp(A, epsilon)`: `m` and `n` are the row and column counts of
`epsilon`, `out` starts as the `m × n` zero matrix, and the loop runs `i = 1, ..., m - 1`. -/
def VARSim_Rcpp (A epsilon : Mat K) : Except Err (Mat K) :=
  let m := epsilon.n_rows
  let n := epsilon.n_cols
  (List.range' 1 (m - 1)).foldlM (VARSim_step A epsilon) (Mat.zeros m n)

/-- Row `i` of a typed matrix by natural index (zero past the last row). Used to state the
recurrence. -/
def extendRows {m n : ℕ} (E : Matrix (Fin n) (Fin m) K) (i : ℕ) : Fin m → K :=
  if h : i < n then E ⟨i, h⟩ else 0

/-- The recurrence `r 0 = 0`, `r (i+1) = r i · Aᵀ + e (i+1)` as a pure function; the loop is
proved to compute it. -/
def varRows {m : ℕ} (A : Matrix (Fin m) (Fin m) K) (e : ℕ → Fin m → K) : ℕ → Fin m → K
  | 0 => 0
  | i + 1 => varRows A e i ᵥ* Aᵀ + e (i + 1)

end MatOps

/-! ## `fastLm` and the linear solve -/

section SolveDefs
variable {K : Type} [LinearOrderedField K]

/-- The Gram matrix `XᵀX` restricted to the columns in `S`, completed by the identity on the
other columns; its determinant is nonzero exactly when the columns in `S` are independent. -/
def gramMask {n k : ℕ} (X : Matrix (Fin n) (Fin k) K) (S : Finset (Fin k)) :
    Matrix (Fin k) (Fin k) K :=
  fun i j => if i ∈ S then (if j ∈ S then (Xᵀ * X) i j else 0) else (if i = j then 1 else 0)

/-- Scan the columns `js` from left to right and keep a column when it is independent of the
columns kept so far. -/
def pivotCols {n k : ℕ} (X : Matrix (Fin n) (Fin k) K) :
    List (Fin k) → Finset (Fin k) → Finset (Fin k)
  | [], S => S
  | j :: js, S =>
    if (gramMask X (insert j S)).det = 0 then pivotCols X js S
    else pivotCols X js (insert j S)

/-- A maximal independent set of columns of `X`. -/
def pivots {n k : ℕ} (X : Matrix (Fin n) (Fin k) K) : Finset (Fin k) :=
  pivotCols X (List.finRange k) ∅

/-- The inverse of a square matrix by Cramer's rule (adjugate over determinant). -/
def minv {k : ℕ} (M : Matrix (Fin k) (Fin k) K) : Matrix (Fin k) (Fin k) K :=
  (M.det)⁻¹ • M.adjugate

/-- The solution of the normal equations restricted to the columns in `S`, zero elsewhere. -/
def basicSol {n k : ℕ} (X : Matrix (Fin n) (Fin k) K) (S : Finset (Fin k)) (y : Fin n → K) :
    Fin k → K :=
  minv (gramMask X S) *ᵥ (fun j => if j ∈ S then (Xᵀ *ᵥ y) j else 0)

/-- The coordinates of every column of `X` in the pivot columns. -/
def coefMat {n k : ℕ} (X : Matrix (Fin n) (Fin k) K) : Matrix (Fin k) (Fin k) K :=
  fun a b => basicSol X (pivots X) (Xᵀ b) a

/-- The Gram matrix of the rows of `coefMat X`, completed by the identity off the pivots. -/
def normMat {n k : ℕ} (X : Matrix (Fin n) (Fin k) K) : Matrix (Fin k) (Fin k) K :=
  fun a b => (coefMat X * (coefMat X)ᵀ) a b +
    (if a ∈ pivots X then 0 else if a = b then 1 else 0)

/-- Modelled from the spec: the numerical core of the linear-solve primitive `arma::solve`,
library code that the source calls and does not contain. The spec describes it as a linear
solve, via QR or normal-equations decomposition, computing the coefficient vector that
minimises the sum of squared residuals. In exact arithmetic that vector is computed here from
the normal equations on a maximal independent set of columns; when the columns of `X` are
dependent the minimiser of least Euclidean norm is taken, which is what the library's
fallback for singular systems approximates. For independent columns the result is the unique
solution of `XᵀX b = Xᵀy`. -/
def lstsq {n k : ℕ} (X : Matrix (Fin n) (Fin k) K) (y : Fin n → K) : Fin k → K :=
  (coefMat X)ᵀ *ᵥ (minv (normMat X) *ᵥ basicSol X (pivots X) y)

/-- Modelled from the spec: the library call `arma::solve(X, y)`, absent from the source.
The library first checks that `X` and `y` have the same number of rows and throws
`std::logic_error` otherwise; then it returns the least-squares solution `lstsq`. -/
def solve (X : Mat K) (y : Col K) : Except Err (Col K) :=
  if h : X.n_rows = y.n_rows then
    .ok ⟨X.n_cols, lstsq X.mem (fun i => y.mem (Fin.cast h i))⟩
  else .error (.logic_error .solve_rows)

/-- The body of `fastLm` with the linear-solve primitive as a parameter: `n` and `k` are read
and not used, the coefficients are obtained from the primitive, the residuals
`y - X * coef` are computed and discarded, and the result is the list with the single named
entry `coefficients`. -/
def fastLmWith (solve_prim : Mat K → Col K → Except Err (Col K)) (X : Mat K) (y : Col K) :
    Except Err (List (String × Col K)) := do
  let n := X.n_rows
  let k := X.n_cols
  let coef ← solve_prim X y
  let fitted ← X.mulVec coef
  let res ← y.sub fitted
  pure [("coefficients", coef)]

/-- The function `fastLm(X, y)`. -/
def fastLm (X : Mat K) (y : Col K) : Except Err (List (String × Col K)) :=
  fastLmWith solve X y

/-- The vector `w` is a combination of the columns of `X` indexed by `S`. -/
def InSpan {n k : ℕ} (X : Matrix (Fin n) (Fin k) K) (S : Finset (Fin k)) (w : Fin n → K) :
    Prop :=
  ∃ u : Fin k → K, (∀ i, i ∉ S → u i = 0) ∧ X *ᵥ u = w

end SolveDefs

/-! ## `nth_partial_sort` -/

section SortDefs
variable {K : Type} [LinearOrder K]

/-- The R heap: the vector objects, indexed by address. -/
abbrev Heap (K : Type) := List (List K)

/-- An Rcpp `NumericVector`: a handle to a vector object of the heap. -/
structure NumericVector where
  addr : ℕ
  deriving DecidableEq

/-- The call `clone(x)`: allocates a fresh object holding a copy of the contents of `x`. -/
def clone (h : Heap K) (x : NumericVector) : Option (Heap K × NumericVector) :=
  match h[x.addr]? with
  | none => none
  | some v => some (h ++ [v], ⟨h.length⟩)

/-- Modelled from the spec: `std::sort(v.begin() + first, v.begin() + last)`, an external
library call the spec lists as pre-existing. It leaves the range in ascending order; on a
linear order the ascending arrangement of a range is unique, so insertion sort stands for
it. -/
def std_sort (v : List K) (first last : ℕ) : List K :=
  v.take first ++ ((v.drop first).take (last - first)).insertionSort (· ≤ ·) ++ v.drop last

/-- Modelled from the spec: the contract of `std::nth_element(first, first + n, last)` over a
whole vector, an external library call the spec lists as pre-existing. The C++ standard leaves
the arrangement open and guarantees: the range is permuted; the element at position `n` is
the one that would be there if the range were sorted; no element before position `n` is
greater than an element from position `n` on. -/
def NthElementSpec (nth_element : List K → ℕ → List K) : Prop :=
  ∀ (l : List K) (n : ℕ),
    (nth_element l n).Perm l ∧
    (n < l.length →
      (nth_element l n)[n]? = (l.insertionSort (· ≤ ·))[n]? ∧
      ∀ a ∈ (nth_element l n).take n, ∀ b ∈ (nth_element l n).drop n, a ≤ b)

/-- The function `nth_partial_sort(x, nth)` over the heap, with the selection routine as a
parameter. An iterator `y.begin() + nth` outside the vector is undefined behaviour and has
no result. The result is the new heap and the handle `y`. -/
def nth_partial_sort (nth_element : List K → ℕ → List K)
    (h : Heap K) (x : NumericVector) (nth : ℤ) : Option (Heap K × NumericVector) := do
  let (h1, y) ← clone h x
  let v ← h1[y.addr]?
  if nth < 0 ∨ (v.length : ℤ) < nth then none
  else
    let h2 := h1.set y.addr (nth_element v nth.toNat)
    let v2 ← h2[y.addr]?
    let h3 := h2.set y.addr (std_sort v2 0 nth.toNat)
    some (h3, y)

/-- One selection routine meeting `NthElementSpec`: sort the whole range. -/
def sortingSelect (l : List K) (n : ℕ) : List K :=
  if n < l.length then l.insertionSort (· ≤ ·) else l

end SortDefs

/-! ## Concrete inputs -/

/-- A `2 × 2` transition matrix. -/
def mismatch_A : Mat ℚ := ⟨2, 2, !![1, 0; 0, 1]⟩

/-- A `1 × 1` innovation matrix: its column count differs from the dimension of
`mismatch_A`. -/
def mismatch_eps1 : Mat ℚ := ⟨1, 1, !![5]⟩

/-- A `3 × 1` innovation matrix: its column count differs from the dimension of
`mismatch_A`. -/
def mismatch_eps3 : Mat ℚ := ⟨3, 1, !![5; 6; 7]⟩

/-- A `2 × 1` design matrix. -/
def short_X : Mat ℚ := ⟨2, 1, !![1; 1]⟩

/-- A response vector of length one. -/
def short_y : Col ℚ := ⟨1, ![1]⟩

/-- A response vector of length three. -/
def long_y : Col ℚ := ⟨3, ![1, 2, 3]⟩

/-- A stand-in for the solve primitive that performs no conformance check and returns the
zero vector of length `X.n_cols`. -/
def uncheckedSolve (X : Mat ℚ) (_y : Col ℚ) : Except Err (Col ℚ) :=
  .ok ⟨X.n_cols, 0⟩

/-! ## Theorems about `VARSim_Rcpp` -/

section VARSimTheorems
variable {K : Type} [CommRing K]

/-- One loop iteration on conformant typed operands succeeds and overwrites row `i`. -/
theorem step_typed {m n : ℕ} (A : Matrix (Fin m) (Fin m) K) (E O : Matrix (Fin n) (Fin m) K)
    (i : ℕ) (h1 : 1 ≤ i) (hi : i < n) :
    VARSim_step ⟨m, m, A⟩ ⟨n, m, E⟩ ⟨n, m, O⟩ i =
      .ok ⟨n, m, fun a => if a.val = i then
        Matrix.vecMul (O ⟨i - 1, by omega⟩) Aᵀ + E ⟨i, hi⟩ else O a⟩ := by
  have h2 : i - 1 < n := by omega
  simp [VARSim_step, Mat.row, Mat.mul, Mat.add, Mat.set_row, Mat.t, hi, h2, bind, Except.bind]
  funext a b
  split_ifs <;> simp [Matrix.vecMul, Matrix.dotProduct]

/-- Loop invariant: after the iterations `1, ..., t` the rows up to `t` hold the recurrence
and the later rows are still zero. -/
theorem fold_typed {m n : ℕ} (A : Matrix (Fin m) (Fin m) K) (E : Matrix (Fin n) (Fin m) K)
    (t : ℕ) (ht : t + 1 ≤ n) :
    (List.range' 1 t).foldlM (VARSim_step ⟨m, m, A⟩ ⟨n, m, E⟩) (Mat.zeros n m) =
      .ok ⟨n, m, fun a => if a.val ≤ t then varRows A (extendRows E) a.val else 0⟩ := by
  induction t with
  | zero =>
    simp only [List.range'_zero, List.foldlM_nil, Mat.zeros, pure, Except.pure]
    congr 2
    funext a
    split_ifs with h
    · have : a.val = 0 := by omega
      rw [this]; rfl
    · rfl
  | succ t ih =>
    rw [List.range'_concat, List.foldlM_append, ih (by omega)]
    simp only [List.foldlM_cons, List.foldlM_nil, bind, Except.bind, pure, Except.pure,
      Nat.one_mul, Nat.add_comm 1 t]
    rw [step_typed A E _ (t + 1) (by omega) (by omega)]
    simp only []
    congr 2
    funext a
    have hE : E ⟨t + 1, by omega⟩ = extendRows E (t + 1) := by
      simp [extendRows, show t + 1 < n by omega]
    by_cases h : a.val = t + 1
    · simp [h, hE, varRows]
    · by_cases h5 : a.val ≤ t
      · simp [h, h5, show a.val ≤ t + 1 by omega]
      · simp [h, h5, show ¬ a.val ≤ t + 1 by omega]

/-- On conformant operands `VARSim_Rcpp` returns the matrix whose rows follow `varRows`. -/
theorem VARSim_Rcpp_typed {m n : ℕ} (A : Matrix (Fin m) (Fin m) K)
    (E : Matrix (Fin n) (Fin m) K) :
    VARSim_Rcpp ⟨m, m, A⟩ ⟨n, m, E⟩ =
      .ok ⟨n, m, fun a => varRows A (extendRows E) a.val⟩ := by
  unfold VARSim_Rcpp
  simp only []
  cases n with
  | zero =>
    simp only [Nat.zero_sub, List.range'_zero, List.foldlM_nil, Mat.zeros, pure, Except.pure]
    congr 2
    funext a
    exact a.elim0
  | succ n =>
    rw [Nat.add_sub_cancel, fold_typed A E n (by omega)]
    congr 2
    funext a
    have : a.val ≤ n := by omega
    simp [this]

theorem varRows_one {m : ℕ} (e : ℕ → Fin m → K) (i : ℕ) :
    varRows (1 : Matrix (Fin m) (Fin m) K) e i = ∑ j ∈ Finset.Icc 1 i, e j := by
  induction i with
  | zero => simp [varRows]
  | succ i ih =>
    rw [varRows, ih, Finset.sum_Icc_succ_top (by omega)]
    simp

theorem varRows_zero_eps {m : ℕ} (A : Matrix (Fin m) (Fin m) K) (i : ℕ) :
    varRows A (fun _ => 0) i = 0 := by
  induction i with
  | zero => rfl
  | succ i ih => simp [varRows, ih]

theorem varRows_zero_A {m : ℕ} (e : ℕ → Fin m → K) (i : ℕ) :
    varRows (0 : Matrix (Fin m) (Fin m) K) e (i + 1) = e (i + 1) := by
  simp [varRows]

theorem varRows_congr {m : ℕ} (A : Matrix (Fin m) (Fin m) K) (e1 e2 : ℕ → Fin m → K)
    (h : ∀ i, 1 ≤ i → e1 i = e2 i) (i : ℕ) : varRows A e1 i = varRows A e2 i := by
  induction i with
  | zero => rfl
  | succ i ih => rw [varRows, varRows, ih, h (i + 1) (by omega)]

theorem sum_Icc_extendRows {m n : ℕ} (E : Matrix (Fin n) (Fin m) K) (i : ℕ) (hi : i < n) :
    ∑ j ∈ Finset.Icc 1 i, extendRows E j =
      ∑ j ∈ Finset.univ.filter (fun j : Fin n => 1 ≤ j.val ∧ j.val ≤ i), E j := by
  induction i with
  | zero =>
    have : Finset.univ.filter (fun j : Fin n => 1 ≤ j.val ∧ j.val ≤ 0) = ∅ := by
      ext j; simp; omega
    rw [this]; simp
  | succ i ih =>
    have hs : Finset.univ.filter (fun j : Fin n => 1 ≤ j.val ∧ j.val ≤ i + 1) =
        insert (⟨i + 1, hi⟩ : Fin n)
          (Finset.univ.filter (fun j : Fin n => 1 ≤ j.val ∧ j.val ≤ i)) := by
      ext j
      simp only [Finset.mem_filter, Finset.mem_univ, true_and, Finset.mem_insert, Fin.ext_iff]
      omega
    rw [Finset.sum_Icc_succ_top (by omega), ih (by omega), hs, Finset.sum_insert, add_comm]
    · simp [extendRows, hi]
    · simp

/-- The loop has no iteration when `epsilon` has fewer than two rows. -/
theorem VARSim_Rcpp_no_steps (A epsilon : Mat K) (h : epsilon.n_rows < 2) :
    VARSim_Rcpp A epsilon = .ok (Mat.zeros epsilon.n_rows epsilon.n_cols) := by
  unfold VARSim_Rcpp
  have : epsilon.n_rows - 1 = 0 := by omega
  simp only [this, List.range'_zero, List.foldlM_nil]
  rfl

/-- The first iteration raises the conformance error of the product or of the sum when `A`
is not square of dimension `epsilon.n_cols`. -/
theorem VARSim_Rcpp_first_step_fails (A epsilon : Mat K) (h : 2 ≤ epsilon.n_rows)
    (hA : ¬ (A.n_rows = epsilon.n_cols ∧ A.n_cols = epsilon.n_cols)) :
    VARSim_Rcpp A epsilon =
      .error (.logic_error (if A.n_cols = epsilon.n_cols then .add_dims else .mul_dims)) := by
  unfold VARSim_Rcpp
  obtain ⟨k, hk⟩ : ∃ k, epsilon.n_rows - 1 = k + 1 := ⟨epsilon.n_rows - 2, by omega⟩
  simp only [hk, List.range'_succ, List.foldlM_cons]
  have hstep : VARSim_step A epsilon (Mat.zeros epsilon.n_rows epsilon.n_cols) 1 =
      .error (.logic_error (if A.n_cols = epsilon.n_cols then .add_dims else .mul_dims)) := by
    have h0 : 0 < epsilon.n_rows := by omega
    have h1 : 1 < epsilon.n_rows := by omega
    by_cases hc : A.n_cols = epsilon.n_cols
    · have hr : ¬ A.n_rows = epsilon.n_cols := fun hr => hA ⟨hr, hc⟩
      simp [VARSim_step, Mat.row, Mat.mul, Mat.add, Mat.t, Mat.zeros, h0, h1, hc, hr,
        bind, Except.bind]
    · have hc2 : ¬ epsilon.n_cols = A.n_cols := fun h2 => hc h2.symm
      simp [VARSim_step, Mat.row, Mat.mul, Mat.t, Mat.zeros, h0, hc, hc2, bind, Except.bind]
  rw [hstep]
  rfl

/-- Claim C1. For a square `m × m` matrix `A` and an `n × m` matrix `epsilon`,
`VARSim_Rcpp(A, epsilon)` returns an `n × m` matrix `out` whose row 0 is zero and whose row
`i`, for `1 ≤ i ≤ n - 1`, is `out[i-1] · Aᵀ + epsilon[i]`. -/
theorem VARSim_Rcpp_recurrence {m n : ℕ} (A : Matrix (Fin m) (Fin m) K)
    (E : Matrix (Fin n) (Fin m) K) :
    ∃ out : Matrix (Fin n) (Fin m) K,
      VARSim_Rcpp ⟨m, m, A⟩ ⟨n, m, E⟩ = .ok ⟨n, m, out⟩ ∧
      (∀ h0 : 0 < n, out ⟨0, h0⟩ = 0) ∧
      ∀ (i : ℕ) (h1 : 1 ≤ i) (hi : i < n),
        out ⟨i, hi⟩ = out ⟨i - 1, by omega⟩ ᵥ* Aᵀ + E ⟨i, hi⟩ := by
  refine ⟨_, VARSim_Rcpp_typed A E, fun _ => rfl, fun i h1 hi => ?_⟩
  obtain ⟨i, rfl⟩ : ∃ k, i = k + 1 := ⟨i - 1, by omega⟩
  simp [varRows, extendRows, hi]

/-- Claim C5. With `A` the `m × m` identity, `VARSim_Rcpp` returns `out` with `out[0] = 0`
and, for `1 ≤ i ≤ n - 1`, `out[i] = epsilon[1] + ... + epsilon[i]`: the cumulative sum of the
innovation rows starting at row 1. -/
theorem VARSim_Rcpp_identity {m n : ℕ} (E : Matrix (Fin n) (Fin m) K) :
    ∃ out : Matrix (Fin n) (Fin m) K,
      VARSim_Rcpp ⟨m, m, 1⟩ ⟨n, m, E⟩ = .ok ⟨n, m, out⟩ ∧
      (∀ h0 : 0 < n, out ⟨0, h0⟩ = 0) ∧
      ∀ (i : ℕ) (_ : 1 ≤ i) (hi : i < n),
        out ⟨i, hi⟩ =
          ∑ j ∈ Finset.univ.filter (fun j : Fin n => 1 ≤ j.val ∧ j.val ≤ i), E j := by
  refine ⟨_, VARSim_Rcpp_typed 1 E, fun _ => rfl, fun i _ hi => ?_⟩
  simp only []
  rw [varRows_one, sum_Icc_extendRows E i hi]

/-- Claim C6. For a transition matrix `A` (square, of dimension the column count of
`epsilon`) and an all-zero `epsilon`, `VARSim_Rcpp` returns the all-zero matrix of the shape
of `epsilon`. -/
theorem VARSim_Rcpp_zero_eps {m n : ℕ} (A : Matrix (Fin m) (Fin m) K) :
    VARSim_Rcpp ⟨m, m, A⟩ ⟨n, m, 0⟩ = .ok ⟨n, m, 0⟩ := by
  rw [VARSim_Rcpp_typed]
  congr 2
  funext a
  have : extendRows (0 : Matrix (Fin n) (Fin m) K) = fun _ => 0 := by
    funext i; unfold extendRows; split_ifs <;> rfl
  rw [this, varRows_zero_eps]; rfl

/-- Claim C8. With `A` the `m × m` zero matrix, `VARSim_Rcpp` returns `out` with
`out[0] = 0` and `out[i] = epsilon[i]` for `1 ≤ i ≤ n - 1`; hence `out = epsilon` when row 0
of `epsilon` is zero. On `A = [[0]]`, `epsilon = [[0],[1],[2]]` the result is
`[[0],[1],[2]]`. -/
theorem VARSim_Rcpp_zero_A :
    (∀ (m n : ℕ) (E : Matrix (Fin n) (Fin m) K),
      ∃ out : Matrix (Fin n) (Fin m) K,
        VARSim_Rcpp ⟨m, m, 0⟩ ⟨n, m, E⟩ = .ok ⟨n, m, out⟩ ∧
        (∀ h0 : 0 < n, out ⟨0, h0⟩ = 0) ∧
        (∀ (i : ℕ) (_ : 1 ≤ i) (hi : i < n), out ⟨i, hi⟩ = E ⟨i, hi⟩) ∧
        ((∀ h0 : 0 < n, E ⟨0, h0⟩ = 0) → out = E)) ∧
    VARSim_Rcpp (⟨1, 1, !![0]⟩ : Mat ℚ) ⟨3, 1, !![0; 1; 2]⟩ = .ok ⟨3, 1, !![0; 1; 2]⟩ := by
  constructor
  · intro m n E
    have hrow : ∀ (i : ℕ) (hi : i < n), 1 ≤ i →
        varRows (0 : Matrix (Fin m) (Fin m) K) (extendRows E) i = E ⟨i, hi⟩ := by
      intro i hi h1
      obtain ⟨i, rfl⟩ : ∃ k, i = k + 1 := ⟨i - 1, by omega⟩
      rw [varRows_zero_A]
      simp [extendRows, hi]
    refine ⟨_, VARSim_Rcpp_typed 0 E, fun _ => rfl, fun i h1 hi => hrow i hi h1, fun h0 => ?_⟩
    funext a
    by_cases ha : a.val = 0
    · have h0n : 0 < n := a.pos
      have : a = ⟨0, h0n⟩ := Fin.ext ha
      rw [this, h0 h0n]; rfl
    · exact hrow a.val a.isLt (by omega)
  · rw [VARSim_Rcpp_typed]
    congr 2
    funext a b
    fin_cases a <;> fin_cases b <;>
      simp [varRows, extendRows, Matrix.vecMul, Matrix.dotProduct]

/-- Claim C9. `VARSim_Rcpp` never reads row 0 of `epsilon`: two innovation matrices of the
same shape that agree on every row of index at least 1 give the same result. -/
theorem VARSim_Rcpp_ignores_row0 {m n : ℕ} (A : Matrix (Fin m) (Fin m) K)
    (E1 E2 : Matrix (Fin n) (Fin m) K) (h : ∀ i : Fin n, 1 ≤ i.val → E1 i = E2 i) :
    VARSim_Rcpp ⟨m, m, A⟩ ⟨n, m, E1⟩ = VARSim_Rcpp ⟨m, m, A⟩ ⟨n, m, E2⟩ := by
  rw [VARSim_Rcpp_typed, VARSim_Rcpp_typed]
  congr 2
  funext a
  apply varRows_congr
  intro i hi
  unfold extendRows
  split_ifs with hn
  · exact h ⟨i, hn⟩ hi
  · rfl

/-- Witness of C9 on `A = [[2]]`, `epsilon = [[5],[1]]` against `[[7],[1]]`. -/
theorem VARSim_Rcpp_ignores_row0_witness :
    (∀ i : Fin 2, 1 ≤ i.val → (!![5; 1] : Matrix (Fin 2) (Fin 1) ℚ) i = !![7; 1] i) ∧
    VARSim_Rcpp (⟨1, 1, !![2]⟩ : Mat ℚ) ⟨2, 1, !![5; 1]⟩ =
      VARSim_Rcpp (⟨1, 1, !![2]⟩ : Mat ℚ) ⟨2, 1, !![7; 1]⟩ :=
  have h : ∀ i : Fin 2, 1 ≤ i.val → (!![5; 1] : Matrix (Fin 2) (Fin 1) ℚ) i = !![7; 1] i := by
    intro i hi
    fin_cases i
    · simp at hi
    · rfl
  ⟨h, VARSim_Rcpp_ignores_row0 !![2] !![5; 1] !![7; 1] h⟩

/-- Counterexample to C3 as stated: `A` is `2 × 2`, `epsilon` is `1 × 1`, the dimension of
`A` is not the column count of `epsilon`, and `VARSim_Rcpp` returns the `1 × 1` zero matrix
instead of failing. -/
theorem VARSim_Rcpp_mismatch_returns :
    mismatch_A.n_rows ≠ mismatch_eps1.n_cols ∧
      VARSim_Rcpp mismatch_A mismatch_eps1 = .ok (Mat.zeros 1 1) := by
  constructor
  · decide
  · rfl

/-- Claim C3, amended. `VARSim_Rcpp` has no shape check of its own. When `A` is not square of
dimension the column count of `epsilon`: if `epsilon` has fewer than two rows the loop has no
iteration and the zero matrix of the shape of `epsilon` is returned; if `epsilon` has at
least two rows the call fails in the first iteration, with the library's conformance error
of the product (column counts of `A` and `epsilon` differ) or of the sum. -/
theorem VARSim_Rcpp_mismatch (A epsilon : Mat K)
    (hA : ¬ (A.n_rows = epsilon.n_cols ∧ A.n_cols = epsilon.n_cols)) :
    (epsilon.n_rows < 2 →
      VARSim_Rcpp A epsilon = .ok (Mat.zeros epsilon.n_rows epsilon.n_cols)) ∧
    (2 ≤ epsilon.n_rows →
      VARSim_Rcpp A epsilon =
        .error (.logic_error (if A.n_cols = epsilon.n_cols then .add_dims else .mul_dims))) :=
  ⟨fun h => VARSim_Rcpp_no_steps A epsilon h,
   fun h => VARSim_Rcpp_first_step_fails A epsilon h hA⟩

/-- Witness of the amended C3 on the `2 × 2` matrix `mismatch_A` and the `3 × 1` matrix
`mismatch_eps3`: the call fails with the conformance error of the product. -/
theorem VARSim_Rcpp_mismatch_witness :
    ¬ (mismatch_A.n_rows = mismatch_eps3.n_cols ∧ mismatch_A.n_cols = mismatch_eps3.n_cols) ∧
    VARSim_Rcpp mismatch_A mismatch_eps3 = .error (.logic_error .mul_dims) :=
  ⟨by decide, (VARSim_Rcpp_mismatch mismatch_A mismatch_eps3 (by decide)).2 (by decide)⟩

end VARSimTheorems

/-! ## Theorems about the linear solve and `fastLm` -/

section SolveTheorems
variable {K : Type} [LinearOrderedField K]

theorem minv_mul_cancel {k : ℕ} (M : Matrix (Fin k) (Fin k) K) (h : M.det ≠ 0) (w : Fin k → K) :
    M *ᵥ (minv M *ᵥ w) = w := by
  rw [Matrix.mulVec_mulVec, minv, Matrix.mul_smul, Matrix.mul_adjugate, smul_smul,
    inv_mul_cancel₀ h, one_smul, Matrix.one_mulVec]

theorem minv_unique {k : ℕ} (M : Matrix (Fin k) (Fin k) K) (h : M.det ≠ 0) (u w : Fin k → K)
    (hu : M *ᵥ u = w) : minv M *ᵥ w = u := by
  rw [← hu, Matrix.mulVec_mulVec, minv, Matrix.smul_mul, Matrix.adjugate_mul, smul_smul,
    inv_mul_cancel₀ h, one_smul, Matrix.one_mulVec]

theorem gramMask_mulVec {n k : ℕ} (X : Matrix (Fin n) (Fin k) K) (S : Finset (Fin k))
    (v : Fin k → K) (hv : ∀ i, i ∉ S → v i = 0) (i : Fin k) :
    (gramMask X S *ᵥ v) i = if i ∈ S then ((Xᵀ * X) *ᵥ v) i else v i := by
  unfold gramMask
  simp only [Matrix.mulVec, Matrix.dotProduct]
  split_ifs with hi
  · apply Finset.sum_congr rfl
    intro j _
    by_cases hj : j ∈ S
    · simp [hj]
    · simp [hj, hv j hj]
  · simp

theorem gramMask_mulVec_out {n k : ℕ} (X : Matrix (Fin n) (Fin k) K) (S : Finset (Fin k))
    (v : Fin k → K) (i : Fin k) (hi : i ∉ S) : (gramMask X S *ᵥ v) i = v i := by
  unfold gramMask
  simp [Matrix.mulVec, Matrix.dotProduct, hi]

theorem gram_quadratic {n k : ℕ} (X : Matrix (Fin n) (Fin k) K) (v : Fin k → K) :
    v ⬝ᵥ ((Xᵀ * X) *ᵥ v) = (X *ᵥ v) ⬝ᵥ (X *ᵥ v) := by
  rw [← Matrix.mulVec_mulVec, Matrix.dotProduct_mulVec, Matrix.vecMul_transpose]

theorem indep_of_det {n k : ℕ} (X : Matrix (Fin n) (Fin k) K) (S : Finset (Fin k))
    (h : (gramMask X S).det ≠ 0) (v : Fin k → K) (hv : ∀ i, i ∉ S → v i = 0)
    (hX : X *ᵥ v = 0) : v = 0 := by
  by_contra hne
  apply h
  rw [← Matrix.exists_mulVec_eq_zero_iff]
  refine ⟨v, hne, ?_⟩
  funext i
  rw [gramMask_mulVec X S v hv]
  split_ifs with hi
  · rw [← Matrix.mulVec_mulVec, hX, Matrix.mulVec_zero]
  · simpa using hv i hi

theorem dep_of_det {n k : ℕ} (X : Matrix (Fin n) (Fin k) K) (T : Finset (Fin k))
    (h : (gramMask X T).det = 0) :
    ∃ v : Fin k → K, v ≠ 0 ∧ (∀ i, i ∉ T → v i = 0) ∧ X *ᵥ v = 0 := by
  obtain ⟨v, hne, hv⟩ := Matrix.exists_mulVec_eq_zero_iff.2 h
  have hsupp : ∀ i, i ∉ T → v i = 0 := by
    intro i hi
    have := congrFun hv i
    rwa [gramMask_mulVec_out X T v i hi] at this
  refine ⟨v, hne, hsupp, ?_⟩
  rw [← Matrix.dotProduct_self_eq_zero, ← gram_quadratic]
  simp only [Matrix.dotProduct]
  apply Finset.sum_eq_zero
  intro i _
  by_cases hi : i ∈ T
  · have := congrFun hv i
    rw [gramMask_mulVec X T v hsupp, if_pos hi] at this
    rw [this]; simp
  · rw [hsupp i hi]; simp


theorem inSpan_mono {n k : ℕ} {X : Matrix (Fin n) (Fin k) K} {S T : Finset (Fin k)}
    {w : Fin n → K} (hST : S ⊆ T) (h : InSpan X S w) : InSpan X T w := by
  obtain ⟨u, hu, hw⟩ := h
  exact ⟨u, fun i hi => hu i (fun hS => hi (hST hS)), hw⟩

theorem inSpan_of_mem {n k : ℕ} (X : Matrix (Fin n) (Fin k) K) (S : Finset (Fin k))
    (j : Fin k) (hj : j ∈ S) : InSpan X S (Xᵀ j) := by
  refine ⟨Pi.single j 1, ?_, Matrix.mulVec_single_one X j⟩
  intro i hi
  have : i ≠ j := fun h => hi (h ▸ hj)
  simp [this]

theorem inSpan_of_dep {n k : ℕ} (X : Matrix (Fin n) (Fin k) K) (S : Finset (Fin k))
    (j : Fin k) (hS : (gramMask X S).det ≠ 0) (hT : (gramMask X (insert j S)).det = 0) :
    InSpan X S (Xᵀ j) := by
  obtain ⟨v, hne, hsupp, hXv⟩ := dep_of_det X (insert j S) hT
  have hvj : v j ≠ 0 := by
    intro h0
    apply hne
    apply indep_of_det X S hS v _ hXv
    intro i hi
    by_cases hij : i = j
    · rw [hij, h0]
    · exact hsupp i (by simp [hij, hi])
  refine ⟨(-(v j)⁻¹) • (v - Pi.single j (v j)), ?_, ?_⟩
  · intro i hi
    by_cases hij : i = j
    · subst hij; simp
    · have : v i = 0 := hsupp i (by simp [hij, hi])
      simp [this, hij]
  · rw [Matrix.mulVec_smul, Matrix.mulVec_sub, hXv, Matrix.mulVec_single]
    funext i
    simp only [Pi.smul_apply, Pi.sub_apply, Pi.zero_apply, smul_eq_mul, Matrix.transpose_apply]
    field_simp

theorem pivotCols_spec {n k : ℕ} (X : Matrix (Fin n) (Fin k) K) (js : List (Fin k))
    (S : Finset (Fin k)) (hS : (gramMask X S).det ≠ 0) :
    (gramMask X (pivotCols X js S)).det ≠ 0 ∧ S ⊆ pivotCols X js S ∧
      ∀ j ∈ js, InSpan X (pivotCols X js S) (Xᵀ j) := by
  induction js generalizing S with
  | nil => exact ⟨hS, Finset.Subset.refl _, fun j hj => absurd hj (List.not_mem_nil _)⟩
  | cons j js ih =>
    unfold pivotCols
    split_ifs with hdet
    · obtain ⟨h1, h2, h3⟩ := ih S hS
      refine ⟨h1, h2, ?_⟩
      intro i hi
      rcases List.mem_cons.1 hi with rfl | hi
      · exact inSpan_mono h2 (inSpan_of_dep X S i hS hdet)
      · exact h3 i hi
    · obtain ⟨h1, h2, h3⟩ := ih (insert j S) hdet
      refine ⟨h1, (Finset.subset_insert j S).trans h2, ?_⟩
      intro i hi
      rcases List.mem_cons.1 hi with rfl | hi
      · exact inSpan_of_mem X _ i (h2 (Finset.mem_insert_self i S))
      · exact h3 i hi

theorem gramMask_empty_det {n k : ℕ} (X : Matrix (Fin n) (Fin k) K) :
    (gramMask X ∅).det ≠ 0 := by
  have : gramMask X ∅ = 1 := by
    funext i j
    simp [gramMask, Matrix.one_apply]
  rw [this, Matrix.det_one]
  exact one_ne_zero

theorem pivots_spec {n k : ℕ} (X : Matrix (Fin n) (Fin k) K) :
    (gramMask X (pivots X)).det ≠ 0 ∧ ∀ j, InSpan X (pivots X) (Xᵀ j) := by
  obtain ⟨h1, _, h3⟩ := pivotCols_spec X (List.finRange k) ∅ (gramMask_empty_det X)
  exact ⟨h1, fun j => h3 j (List.mem_finRange j)⟩


theorem basicSol_eq {n k : ℕ} (X : Matrix (Fin n) (Fin k) K) (S : Finset (Fin k))
    (hS : (gramMask X S).det ≠ 0) (y : Fin n → K) :
    gramMask X S *ᵥ basicSol X S y = fun j => if j ∈ S then (Xᵀ *ᵥ y) j else 0 :=
  minv_mul_cancel _ hS _

theorem basicSol_supp {n k : ℕ} (X : Matrix (Fin n) (Fin k) K) (S : Finset (Fin k))
    (hS : (gramMask X S).det ≠ 0) (y : Fin n → K) (i : Fin k) (hi : i ∉ S) :
    basicSol X S y i = 0 := by
  have := congrFun (basicSol_eq X S hS y) i
  rwa [gramMask_mulVec_out X S _ i hi, if_neg hi] at this

theorem basicSol_normal {n k : ℕ} (X : Matrix (Fin n) (Fin k) K) (S : Finset (Fin k))
    (hS : (gramMask X S).det ≠ 0) (y : Fin n → K) (i : Fin k) (hi : i ∈ S) :
    (Xᵀ *ᵥ (y - X *ᵥ basicSol X S y)) i = 0 := by
  have := congrFun (basicSol_eq X S hS y) i
  rw [gramMask_mulVec X S _ (basicSol_supp X S hS y), if_pos hi, if_pos hi,
    ← Matrix.mulVec_mulVec] at this
  rw [Matrix.mulVec_sub, Pi.sub_apply, this, sub_self]

theorem basicSol_of_span {n k : ℕ} (X : Matrix (Fin n) (Fin k) K) (S : Finset (Fin k))
    (hS : (gramMask X S).det ≠ 0) (u : Fin k → K) (hu : ∀ i, i ∉ S → u i = 0) :
    basicSol X S (X *ᵥ u) = u := by
  apply minv_unique _ hS
  funext i
  rw [gramMask_mulVec X S u hu]
  split_ifs with hi
  · rw [← Matrix.mulVec_mulVec]
  · exact hu i hi

theorem normal_of_span {n k : ℕ} (X : Matrix (Fin n) (Fin k) K) (S : Finset (Fin k))
    (hspan : ∀ j, InSpan X S (Xᵀ j)) (r : Fin n → K)
    (hr : ∀ i ∈ S, (Xᵀ *ᵥ r) i = 0) : Xᵀ *ᵥ r = 0 := by
  funext j
  obtain ⟨u, hu, hXu⟩ := hspan j
  show (Xᵀ j) ⬝ᵥ r = 0
  rw [← hXu, Matrix.dotProduct_comm, Matrix.dotProduct_mulVec, ← Matrix.mulVec_transpose]
  simp only [Matrix.dotProduct]
  apply Finset.sum_eq_zero
  intro i _
  by_cases hi : i ∈ S
  · rw [hr i hi, zero_mul]
  · rw [hu i hi, mul_zero]

theorem least_of_normal {n k : ℕ} (X : Matrix (Fin n) (Fin k) K) (y : Fin n → K)
    (c : Fin k → K) (h : Xᵀ *ᵥ (y - X *ᵥ c) = 0) (b : Fin k → K) :
    (y - X *ᵥ c) ⬝ᵥ (y - X *ᵥ c) ≤ (y - X *ᵥ b) ⬝ᵥ (y - X *ᵥ b) := by
  have hb : y - X *ᵥ b = (y - X *ᵥ c) + X *ᵥ (c - b) := by
    rw [Matrix.mulVec_sub]; abel
  have hcross : (y - X *ᵥ c) ⬝ᵥ (X *ᵥ (c - b)) = 0 := by
    rw [Matrix.dotProduct_mulVec, ← Matrix.mulVec_transpose, h, Matrix.zero_dotProduct]
  have hcross2 : (X *ᵥ (c - b)) ⬝ᵥ (y - X *ᵥ c) = 0 := by
    rw [Matrix.dotProduct_comm, hcross]
  have hnn : 0 ≤ (X *ᵥ (c - b)) ⬝ᵥ (X *ᵥ (c - b)) := by
    simp only [Matrix.dotProduct]
    exact Finset.sum_nonneg fun i _ => mul_self_nonneg _
  rw [hb, Matrix.add_dotProduct, Matrix.dotProduct_add, Matrix.dotProduct_add, hcross, hcross2]
  linarith


theorem coefMat_supp {n k : ℕ} (X : Matrix (Fin n) (Fin k) K) (a b : Fin k)
    (ha : a ∉ pivots X) : coefMat X a b = 0 :=
  basicSol_supp X _ (pivots_spec X).1 _ a ha

theorem coefMat_pivot {n k : ℕ} (X : Matrix (Fin n) (Fin k) K) (a s : Fin k)
    (hs : s ∈ pivots X) : coefMat X a s = (Pi.single s 1 : Fin k → K) a := by
  unfold coefMat
  rw [← Matrix.mulVec_single_one X s, basicSol_of_span X _ (pivots_spec X).1]
  intro i hi
  have : i ≠ s := fun h => hi (h ▸ hs)
  simp [this]

theorem mul_coefMat {n k : ℕ} (X : Matrix (Fin n) (Fin k) K) : X * coefMat X = X := by
  funext i b
  obtain ⟨u, hu, hXu⟩ := (pivots_spec X).2 b
  have h1 : basicSol X (pivots X) (Xᵀ b) = u := by
    rw [← hXu]; exact basicSol_of_span X _ (pivots_spec X).1 u hu
  have h2 : (X * coefMat X) i b = (X *ᵥ basicSol X (pivots X) (Xᵀ b)) i := rfl
  rw [h2, h1, hXu]; rfl

theorem gramC_out {n k : ℕ} (X : Matrix (Fin n) (Fin k) K) (v : Fin k → K) (a : Fin k)
    (ha : a ∉ pivots X) : ((coefMat X * (coefMat X)ᵀ) *ᵥ v) a = 0 := by
  simp only [Matrix.mulVec, Matrix.dotProduct, Matrix.mul_apply]
  apply Finset.sum_eq_zero
  intro b _
  rw [Finset.sum_eq_zero, zero_mul]
  intro c _
  rw [coefMat_supp X a c ha, zero_mul]

theorem normMat_mulVec {n k : ℕ} (X : Matrix (Fin n) (Fin k) K) (v : Fin k → K) (a : Fin k) :
    (normMat X *ᵥ v) a =
      if a ∈ pivots X then ((coefMat X * (coefMat X)ᵀ) *ᵥ v) a else v a := by
  have h : (normMat X *ᵥ v) a = ((coefMat X * (coefMat X)ᵀ) *ᵥ v) a +
      (if a ∈ pivots X then 0 else v a) := by
    simp only [normMat, Matrix.mulVec, Matrix.dotProduct, add_mul, Finset.sum_add_distrib]
    congr 1
    split_ifs with ha
    · simp
    · simp
  rw [h]
  split_ifs with ha
  · rw [add_zero]
  · rw [gramC_out X v a ha, zero_add]

theorem normMat_det {n k : ℕ} (X : Matrix (Fin n) (Fin k) K) : (normMat X).det ≠ 0 := by
  intro hdet
  obtain ⟨v, hne, hv⟩ := Matrix.exists_mulVec_eq_zero_iff.2 hdet
  have hsupp : ∀ a, a ∉ pivots X → v a = 0 := by
    intro a ha
    have := congrFun hv a
    rwa [normMat_mulVec, if_neg ha] at this
  have hin : ∀ a, a ∈ pivots X → ((coefMat X * (coefMat X)ᵀ) *ᵥ v) a = 0 := by
    intro a ha
    have := congrFun hv a
    rwa [normMat_mulVec, if_pos ha] at this
  have hq : v ⬝ᵥ ((coefMat X * (coefMat X)ᵀ) *ᵥ v) = 0 := by
    simp only [Matrix.dotProduct]
    apply Finset.sum_eq_zero
    intro a _
    by_cases ha : a ∈ pivots X
    · rw [hin a ha, mul_zero]
    · rw [hsupp a ha, zero_mul]
  have hCv : (coefMat X)ᵀ *ᵥ v = 0 := by
    rw [← Matrix.dotProduct_self_eq_zero, ← gram_quadratic, Matrix.transpose_transpose]
    exact hq
  apply hne
  funext s
  by_cases hs : s ∈ pivots X
  · have := congrFun hCv s
    simp only [Matrix.mulVec, Matrix.dotProduct, Matrix.transpose_apply, Pi.zero_apply] at this
    rw [Finset.sum_congr rfl (fun a _ => by rw [coefMat_pivot X a s hs])] at this
    have h2 : (Pi.single s 1 : Fin k → K) ⬝ᵥ v = 0 := this
    rwa [Matrix.single_dotProduct, one_mul] at h2
  · exact hsupp s hs

theorem lstsq_fitted {n k : ℕ} (X : Matrix (Fin n) (Fin k) K) (y : Fin n → K) :
    X *ᵥ lstsq X y = X *ᵥ basicSol X (pivots X) y := by
  set z := minv (normMat X) *ᵥ basicSol X (pivots X) y with hz
  have hNz : normMat X *ᵥ z = basicSol X (pivots X) y := minv_mul_cancel _ (normMat_det X) _
  have hCC : (coefMat X * (coefMat X)ᵀ) *ᵥ z = basicSol X (pivots X) y := by
    funext a
    by_cases ha : a ∈ pivots X
    · have := congrFun hNz a
      rwa [normMat_mulVec, if_pos ha] at this
    · rw [gramC_out X z a ha, basicSol_supp X _ (pivots_spec X).1 y a ha]
  have : X *ᵥ lstsq X y = (X * coefMat X) *ᵥ ((coefMat X)ᵀ *ᵥ z) := by
    rw [mul_coefMat]; rfl
  rw [this, ← Matrix.mulVec_mulVec, Matrix.mulVec_mulVec z, hCC]

theorem lstsq_normal {n k : ℕ} (X : Matrix (Fin n) (Fin k) K) (y : Fin n → K) :
    Xᵀ *ᵥ (y - X *ᵥ lstsq X y) = 0 := by
  rw [lstsq_fitted]
  exact normal_of_span X (pivots X) (pivots_spec X).2 _
    (fun i hi => basicSol_normal X _ (pivots_spec X).1 y i hi)

theorem lstsq_least {n k : ℕ} (X : Matrix (Fin n) (Fin k) K) (y : Fin n → K) (b : Fin k → K) :
    (y - X *ᵥ lstsq X y) ⬝ᵥ (y - X *ᵥ lstsq X y) ≤ (y - X *ᵥ b) ⬝ᵥ (y - X *ᵥ b) :=
  least_of_normal X y _ (lstsq_normal X y) b


theorem coefMat_factor {n k : ℕ} (X : Matrix (Fin n) (Fin k) K) :
    ∃ W : Matrix (Fin k) (Fin n) K, coefMat X = W * X := by
  refine ⟨minv (gramMask X (pivots X)) *
    (Matrix.of fun j i => if j ∈ pivots X then X i j else 0), ?_⟩
  funext a b
  simp only [coefMat, basicSol, Matrix.mulVec, Matrix.dotProduct, Matrix.mul_apply,
    Matrix.transpose_apply, Finset.sum_mul, Matrix.of_apply]
  rw [Finset.sum_comm]
  apply Finset.sum_congr rfl
  intro j _
  by_cases hj : j ∈ pivots X
  · simp only [hj, if_true, Finset.mul_sum, mul_assoc]
  · simp [hj]

theorem lstsq_row_space {n k : ℕ} (X : Matrix (Fin n) (Fin k) K) (y : Fin n → K) :
    ∃ w : Fin n → K, lstsq X y = Xᵀ *ᵥ w := by
  obtain ⟨W, hW⟩ := coefMat_factor X
  refine ⟨Wᵀ *ᵥ (minv (normMat X) *ᵥ basicSol X (pivots X) y), ?_⟩
  rw [Matrix.mulVec_mulVec, ← Matrix.transpose_mul, ← hW]
  rfl

theorem fitted_of_least {n k : ℕ} (X : Matrix (Fin n) (Fin k) K) (y : Fin n → K)
    (c b : Fin k → K) (h : Xᵀ *ᵥ (y - X *ᵥ c) = 0)
    (hb : (y - X *ᵥ b) ⬝ᵥ (y - X *ᵥ b) ≤ (y - X *ᵥ c) ⬝ᵥ (y - X *ᵥ c)) :
    X *ᵥ b = X *ᵥ c := by
  have hexp : y - X *ᵥ b = (y - X *ᵥ c) + X *ᵥ (c - b) := by
    rw [Matrix.mulVec_sub]; abel
  have hcross : (y - X *ᵥ c) ⬝ᵥ (X *ᵥ (c - b)) = 0 := by
    rw [Matrix.dotProduct_mulVec, ← Matrix.mulVec_transpose, h, Matrix.zero_dotProduct]
  have hcross2 : (X *ᵥ (c - b)) ⬝ᵥ (y - X *ᵥ c) = 0 := by
    rw [Matrix.dotProduct_comm, hcross]
  have hnn : 0 ≤ (X *ᵥ (c - b)) ⬝ᵥ (X *ᵥ (c - b)) := by
    simp only [Matrix.dotProduct]
    exact Finset.sum_nonneg fun i _ => mul_self_nonneg _
  rw [hexp, Matrix.add_dotProduct, Matrix.dotProduct_add, Matrix.dotProduct_add, hcross,
    hcross2] at hb
  have hz : (X *ᵥ (c - b)) ⬝ᵥ (X *ᵥ (c - b)) = 0 := by linarith
  rw [Matrix.dotProduct_self_eq_zero, Matrix.mulVec_sub, sub_eq_zero] at hz
  exact hz.symm

theorem lstsq_min_norm {n k : ℕ} (X : Matrix (Fin n) (Fin k) K) (y : Fin n → K)
    (b : Fin k → K)
    (hb : ∀ b2 : Fin k → K, (y - X *ᵥ b) ⬝ᵥ (y - X *ᵥ b) ≤ (y - X *ᵥ b2) ⬝ᵥ (y - X *ᵥ b2)) :
    lstsq X y ⬝ᵥ lstsq X y ≤ b ⬝ᵥ b := by
  have hfit := fitted_of_least X y (lstsq X y) b (lstsq_normal X y) (hb _)
  obtain ⟨w, hw⟩ := lstsq_row_space X y
  have hd : X *ᵥ (b - lstsq X y) = 0 := by
    rw [Matrix.mulVec_sub, hfit, sub_self]
  generalize hdef : b - lstsq X y = d at hd
  have hcross : lstsq X y ⬝ᵥ d = 0 := by
    rw [hw, Matrix.mulVec_transpose, ← Matrix.dotProduct_mulVec, hd, Matrix.dotProduct_zero]
  have hcross2 : d ⬝ᵥ lstsq X y = 0 := by
    rw [Matrix.dotProduct_comm, hcross]
  have hnn : 0 ≤ d ⬝ᵥ d := by
    simp only [Matrix.dotProduct]
    exact Finset.sum_nonneg fun i _ => mul_self_nonneg _
  have hexp : b = lstsq X y + d := by rw [← hdef]; abel
  have hbb : b ⬝ᵥ b = lstsq X y ⬝ᵥ lstsq X y + d ⬝ᵥ d := by
    rw [hexp, Matrix.add_dotProduct, Matrix.dotProduct_add, Matrix.dotProduct_add, hcross,
      hcross2]
    ring
  rw [hbb]
  linarith

theorem lstsq_exact {n k : ℕ} (X : Matrix (Fin n) (Fin k) K) (c : Fin k → K)
    (hinj : ∀ v : Fin k → K, X *ᵥ v = 0 → v = 0) : lstsq X (X *ᵥ c) = c := by
  have h := lstsq_least X (X *ᵥ c) c
  rw [sub_self, Matrix.dotProduct_zero] at h
  have hnn : 0 ≤ (X *ᵥ c - X *ᵥ lstsq X (X *ᵥ c)) ⬝ᵥ (X *ᵥ c - X *ᵥ lstsq X (X *ᵥ c)) := by
    simp only [Matrix.dotProduct]
    exact Finset.sum_nonneg fun i _ => mul_self_nonneg _
  have hz := le_antisymm h hnn
  rw [Matrix.dotProduct_self_eq_zero, ← Matrix.mulVec_sub] at hz
  have := hinj _ hz
  exact (sub_eq_zero.1 this).symm

/-- On operands of matching row counts `fastLm` returns the single entry `coefficients`
holding the least-squares solution. -/
theorem fastLm_typed {n k : ℕ} (X : Matrix (Fin n) (Fin k) K) (y : Fin n → K) :
    fastLm ⟨n, k, X⟩ ⟨n, y⟩ = .ok [("coefficients", ⟨k, lstsq X y⟩)] := by
  simp [fastLm, fastLmWith, solve, Mat.mulVec, Col.sub, bind, Except.bind, pure, Except.pure]

/-- Claim C2. For every `n × k` design matrix `X` and response `y` of length `n`,
`fastLm(X, y)` returns a result whose `coefficients` entry is a vector of length `k`
minimising the sum of squared residuals `‖y − X·coef‖²` over all vectors `b` of length `k`.
On `X = [[1,1],[1,2],[1,3]]`, `y = [2,3,4]` the coefficients are `[1, 1]`. -/
theorem fastLm_least_squares :
    (∀ (n k : ℕ) (X : Matrix (Fin n) (Fin k) K) (y : Fin n → K),
      ∃ coef : Fin k → K,
        fastLm ⟨n, k, X⟩ ⟨n, y⟩ = .ok [("coefficients", ⟨k, coef⟩)] ∧
        ∀ b : Fin k → K,
          (y - X *ᵥ coef) ⬝ᵥ (y - X *ᵥ coef) ≤ (y - X *ᵥ b) ⬝ᵥ (y - X *ᵥ b)) ∧
    fastLm (⟨3, 2, !![1, 1; 1, 2; 1, 3]⟩ : Mat ℚ) ⟨3, ![2, 3, 4]⟩ =
      .ok [("coefficients", ⟨2, ![1, 1]⟩)] := by
  constructor
  · intro n k X y
    exact ⟨lstsq X y, fastLm_typed X y, lstsq_least X y⟩
  · rw [fastLm_typed]
    have hy : (![2, 3, 4] : Fin 3 → ℚ) =
        (!![1, 1; 1, 2; 1, 3] : Matrix (Fin 3) (Fin 2) ℚ) *ᵥ ![1, 1] := by
      funext i; fin_cases i <;> simp [Matrix.mulVec, Matrix.dotProduct] <;> norm_num
    have hc : lstsq (!![1, 1; 1, 2; 1, 3] : Matrix (Fin 3) (Fin 2) ℚ) ![2, 3, 4] = ![1, 1] := by
      rw [hy]
      apply lstsq_exact
      intro v hv
      have h0 := congrFun hv 0
      have h1 := congrFun hv 1
      simp [Matrix.mulVec, Matrix.dotProduct] at h0 h1
      funext i
      fin_cases i
      · simp; linarith
      · simp; linarith
    rw [hc]

/-- Claim C7. For a square matrix `X` of full rank (nonzero determinant) and a vector `c`,
the `coefficients` entry of `fastLm(X, X·c)` is `c`, in exact arithmetic. -/
theorem fastLm_recovers {k : ℕ} (X : Matrix (Fin k) (Fin k) K) (c : Fin k → K)
    (hX : X.det ≠ 0) :
    fastLm ⟨k, k, X⟩ ⟨k, X *ᵥ c⟩ = .ok [("coefficients", ⟨k, c⟩)] := by
  rw [fastLm_typed, lstsq_exact X c]
  intro v hv
  by_contra hne
  exact hX (Matrix.exists_mulVec_eq_zero_iff.1 ⟨v, hne, hv⟩)

/-- Witness of C7 on `X = [[2,1],[1,1]]` (determinant 1) and `c = [3,-1]`. -/
theorem fastLm_recovers_witness :
    (!![2, 1; 1, 1] : Matrix (Fin 2) (Fin 2) ℚ).det ≠ 0 ∧
    fastLm (⟨2, 2, !![2, 1; 1, 1]⟩ : Mat ℚ) ⟨2, !![2, 1; 1, 1] *ᵥ ![3, -1]⟩ =
      .ok [("coefficients", ⟨2, ![3, -1]⟩)] :=
  have h : (!![2, 1; 1, 1] : Matrix (Fin 2) (Fin 2) ℚ).det ≠ 0 := by
    rw [Matrix.det_fin_two_of]; norm_num
  ⟨h, fastLm_recovers !![2, 1; 1, 1] ![3, -1] h⟩

/-- Counterexample to C4 as stated: `X` is `2 × 1` and `y` has length 1. No check of
`fastLm` precedes the solve: the failure is the row-count check raised inside the library
solve, and with a solve primitive that does not check, the same body runs through the solve
and fails only afterwards, at the subtraction of the discarded residuals. -/
theorem fastLm_mismatch_not_prechecked :
    short_y.n_rows ≠ short_X.n_rows ∧
    fastLm short_X short_y = .error (.logic_error .solve_rows) ∧
    fastLmWith uncheckedSolve short_X short_y = .error (.logic_error .sub_dims) := by
  refine ⟨by decide, rfl, rfl⟩

/-- Claim C4, amended. `fastLm` has no shape check of its own: for `X` of shape `(n, k)` and
`y` of length other than `n`, the call fails, returning no coefficients, with the
conformance error that the library's solve raises on operands of different row counts. -/
theorem fastLm_mismatch (X : Mat K) (y : Col K) (h : y.n_rows ≠ X.n_rows) :
    fastLm X y = .error (.logic_error .solve_rows) := by
  have h2 : ¬ X.n_rows = y.n_rows := fun e => h e.symm
  simp [fastLm, fastLmWith, solve, h2, bind, Except.bind]

/-- Witness of the amended C4 on the `2 × 1` matrix `short_X` and the length-3 vector
`long_y`. -/
theorem fastLm_mismatch_witness :
    long_y.n_rows ≠ short_X.n_rows ∧
    fastLm short_X long_y = .error (.logic_error .solve_rows) :=
  ⟨by decide, fastLm_mismatch short_X long_y (by decide)⟩

end SolveTheorems

/-! ## Theorems about `nth_partial_sort` -/

section SortTheorems
variable {K : Type} [LinearOrder K]

theorem nth_partial_sort_eq (ne : List K → ℕ → List K) (h : Heap K) (x : NumericVector)
    (xs : List K) (hx : h[x.addr]? = some xs) (nth : ℕ) (hn : nth ≤ xs.length) :
    nth_partial_sort ne h x (nth : ℤ) =
      some (h ++ [std_sort (ne xs nth) 0 nth], ⟨h.length⟩) := by
  simp [nth_partial_sort, clone, hx, hn, bind, Option.bind]

theorem std_sort_zero (z : List K) (n : ℕ) :
    std_sort z 0 n = (z.take n).insertionSort (· ≤ ·) ++ z.drop n := by
  simp [std_sort]

theorem mem_insertionSort_iff (a : K) (l : List K) :
    a ∈ l.insertionSort (· ≤ ·) ↔ a ∈ l :=
  (List.perm_insertionSort (· ≤ ·) l).mem_iff

theorem sorted_halves (z : List K) (n : ℕ)
    (hpart : ∀ a ∈ z.take n, ∀ b ∈ z.drop n, a ≤ b) :
    (z.take n).insertionSort (· ≤ ·) ++ (z.drop n).insertionSort (· ≤ ·) =
      z.insertionSort (· ≤ ·) := by
  apply List.eq_of_perm_of_sorted (r := (· ≤ ·))
  · calc (z.take n).insertionSort (· ≤ ·) ++ (z.drop n).insertionSort (· ≤ ·)
        |>.Perm (z.take n ++ z.drop n) :=
          (List.perm_insertionSort _ _).append (List.perm_insertionSort _ _)
      _ = z := List.take_append_drop n z
      _ |>.Perm (z.insertionSort (· ≤ ·)) := (List.perm_insertionSort _ _).symm
  · rw [List.Sorted, List.pairwise_append]
    refine ⟨List.sorted_insertionSort _ _, List.sorted_insertionSort _ _, ?_⟩
    intro a ha b hb
    exact hpart a ((mem_insertionSort_iff a _).1 ha) b ((mem_insertionSort_iff b _).1 hb)
  · exact List.sorted_insertionSort _ _

theorem insertionSort_congr {l1 l2 : List K} (h : l1.Perm l2) :
    l1.insertionSort (· ≤ ·) = l2.insertionSort (· ≤ ·) := by
  apply List.eq_of_perm_of_sorted (r := (· ≤ ·))
  · exact ((List.perm_insertionSort _ _).trans h).trans (List.perm_insertionSort _ _).symm
  · exact List.sorted_insertionSort _ _
  · exact List.sorted_insertionSort _ _

theorem sortingSelect_spec : NthElementSpec (sortingSelect (K := K)) := by
  intro l n
  unfold sortingSelect
  split_ifs with hn
  · refine ⟨List.perm_insertionSort _ _, fun _ => ⟨rfl, ?_⟩⟩
    intro a ha b hb
    have hs : List.Sorted (· ≤ ·) (l.insertionSort (· ≤ ·)) := List.sorted_insertionSort _ _
    rw [← List.take_append_drop n (l.insertionSort (· ≤ ·)), List.Sorted,
      List.pairwise_append] at hs
    exact hs.2.2 a ha b hb
  · exact ⟨List.Perm.refl _, fun h => absurd h hn⟩

/-- Claim C10. For every vector `x` and every `nth` with `0 ≤ nth < length(x)`,
`nth_partial_sort(x, nth)` returns a fresh vector `y` that is a permutation of `x`, whose
first `nth` entries are ascending and are the `nth` smallest entries of `x` (the first `nth`
entries of `x` sorted), whose entry `p` at index `nth` is at least every earlier entry and at
most every later entry, and the object of `x` is unchanged in the heap. This holds for every
selection routine meeting the contract of `std::nth_element`. -/
theorem nth_partial_sort_spec (nth_element : List K → ℕ → List K)
    (hspec : NthElementSpec nth_element) (h : Heap K) (x : NumericVector) (xs : List K)
    (hx : h[x.addr]? = some xs) (nth : ℕ) (hn : nth < xs.length) :
    ∃ (ys : List K) (p : K),
      nth_partial_sort nth_element h x (nth : ℤ) = some (h ++ [ys], ⟨h.length⟩) ∧
      (h ++ [ys])[x.addr]? = some xs ∧
      ys.Perm xs ∧
      (ys.take nth).Sorted (· ≤ ·) ∧
      ys.take nth = (xs.insertionSort (· ≤ ·)).take nth ∧
      ys[nth]? = some p ∧
      ∀ (i : ℕ) (hi : i < ys.length), (i < nth → ys[i] ≤ p) ∧ (nth < i → p ≤ ys[i]) := by
  obtain ⟨hperm, hrest⟩ := hspec xs nth
  obtain ⟨hnth, hpart⟩ := hrest hn
  set z := nth_element xs nth with hz
  have hzlen : z.length = xs.length := hperm.length_eq
  have hsortz : z.insertionSort (· ≤ ·) = xs.insertionSort (· ≤ ·) := insertionSort_congr hperm
  have hhalves := sorted_halves z nth hpart
  rw [hsortz] at hhalves
  have hlenA : ((z.take nth).insertionSort (· ≤ ·)).length = nth := by
    rw [List.length_insertionSort, List.length_take]; omega
  have hys : std_sort z 0 nth = (z.take nth).insertionSort (· ≤ ·) ++ z.drop nth :=
    std_sort_zero z nth
  have htake : (std_sort z 0 nth).take nth = (z.take nth).insertionSort (· ≤ ·) := by
    rw [hys, List.take_left' hlenA]
  have hznth : nth < z.length := by omega
  have hp : (std_sort z 0 nth)[nth]? = some z[nth] := by
    rw [hys, List.getElem?_append_right (by omega), hlenA, Nat.sub_self,
      List.getElem?_drop]
    simp [List.getElem?_eq_getElem hznth]
  refine ⟨std_sort z 0 nth, z[nth], nth_partial_sort_eq nth_element h x xs hx nth (by omega),
    ?_, ?_, ?_, ?_, hp, ?_⟩
  · rw [List.getElem?_append_left]
    · exact hx
    · by_contra hcon
      rw [List.getElem?_eq_none (by omega)] at hx
      exact Option.noConfusion hx
  · rw [hys]
    exact ((List.perm_insertionSort _ _).append_right _).trans
      ((List.take_append_drop nth z).symm ▸ hperm)
  · rw [htake]; exact List.sorted_insertionSort _ _
  · rw [htake, ← hhalves, List.take_left' hlenA]
  · intro i hi
    have hmem_drop : z[nth] ∈ z.drop nth := by
      rw [List.mem_iff_getElem?]
      exact ⟨0, by simp [List.getElem?_drop, List.getElem?_eq_getElem hznth]⟩
    constructor
    · intro hlt
      have : (std_sort z 0 nth)[i] ∈ (std_sort z 0 nth).take nth := by
        rw [List.mem_iff_getElem?]
        exact ⟨i, by rw [List.getElem?_take_of_lt hlt, List.getElem?_eq_getElem hi]⟩
      rw [htake, mem_insertionSort_iff] at this
      exact hpart _ this _ hmem_drop
    · intro hgt
      have hmemB : (std_sort z 0 nth)[i] ∈ (z.drop nth).insertionSort (· ≤ ·) := by
        rw [mem_insertionSort_iff, List.mem_iff_getElem?]
        refine ⟨i - nth, ?_⟩
        rw [← List.getElem?_eq_getElem hi, hys, List.getElem?_append_right (by omega), hlenA]
      have hB : ((z.drop nth).insertionSort (· ≤ ·))[0]? = some z[nth] := by
        have h1 := hnth
        rw [← hhalves, List.getElem?_append_right (by omega), hlenA, Nat.sub_self,
          List.getElem?_eq_getElem hznth] at h1
        exact h1.symm
      have hsB : List.Sorted (· ≤ ·) ((z.drop nth).insertionSort (· ≤ ·)) :=
        List.sorted_insertionSort _ _
      cases hBeq : (z.drop nth).insertionSort (· ≤ ·) with
      | nil => rw [hBeq] at hmemB; exact absurd hmemB (List.not_mem_nil _)
      | cons b0 B =>
        rw [hBeq] at hmemB hB hsB
        have hb0 : b0 = z[nth] := by simpa using hB
        rcases List.mem_cons.1 hmemB with heq | hin
        · rw [heq, hb0]
        · rw [← hb0]; exact List.rel_of_sorted_cons hsB _ hin


/-- Witness of C10 on `x = [5, 3, 9, 1, 7, 2]`, `nth = 3`, with whole-range sorting as the
selection routine. -/
theorem nth_partial_sort_spec_witness :
    NthElementSpec (sortingSelect (K := ℤ)) ∧
    (([[5, 3, 9, 1, 7, 2]] : Heap ℤ)[(⟨0⟩ : NumericVector).addr]? = some [5, 3, 9, 1, 7, 2]) ∧
    3 < ([5, 3, 9, 1, 7, 2] : List ℤ).length ∧
    ∃ (ys : List ℤ) (p : ℤ),
      nth_partial_sort sortingSelect [[5, 3, 9, 1, 7, 2]] ⟨0⟩ ((3 : ℕ) : ℤ) =
        some ([[5, 3, 9, 1, 7, 2]] ++ [ys], ⟨1⟩) ∧
      ([[5, 3, 9, 1, 7, 2]] ++ [ys])[(⟨0⟩ : NumericVector).addr]? = some [5, 3, 9, 1, 7, 2] ∧
      ys.Perm [5, 3, 9, 1, 7, 2] ∧
      (ys.take 3).Sorted (· ≤ ·) ∧
      ys.take 3 = (([5, 3, 9, 1, 7, 2] : List ℤ).insertionSort (· ≤ ·)).take 3 ∧
      ys[3]? = some p ∧
      ∀ (i : ℕ) (hi : i < ys.length), (i < 3 → ys[i] ≤ p) ∧ (3 < i → p ≤ ys[i]) :=
  ⟨sortingSelect_spec, rfl, by decide,
    nth_partial_sort_spec sortingSelect sortingSelect_spec [[5, 3, 9, 1, 7, 2]] ⟨0⟩
      [5, 3, 9, 1, 7, 2] rfl 3 (by decide)⟩

end SortTheorems

end ARE
